import Mathlib

/-!
Verification of the quantum_state_preparation repository against its
specification.

The development shallowly embeds the two source files:

* `gene.py` — the gene → circuit decoder (`Gene_Circuit`): the gate alphabet,
  the position-major decoding pass, parameter emission, and qiskit's
  name-sorted parameter binding;
* `GA.py` — the generation loop: the adaptive fidelity-threshold search, the
  depth-argsort elite selection (including numpy's introsort argsort), the
  crossover/mutation/regeneration step, and the fidelity evaluator's data flow.

Machine reals of the original are modelled with exact rationals `ℚ`; Python
exceptions surface as `Option`/`Except`; random draws are passed in as
explicit entropy arguments whose reduction (`lo + r % (hi - lo)`) realizes
exactly the documented support of `np.random.randint`.
-/

namespace QSP

/-- The gate alphabet of `gene.py`:
`gene_gates = ['empty','rz','cx','h','x','sx']`. -/
def gene_gates : List String := ["empty", "rz", "cx", "h", "x", "sx"]

/-- Python list indexing `xs[i]` with an `Int` index: indices in `[0, len)`
read directly, indices in `[-len, -1]` count from the end, anything else is an
`IndexError` (`none`). -/
def pyGet {α : Type} (xs : List α) (i : Int) : Option α :=
  if 0 ≤ i ∧ i < xs.length then xs[i.toNat]?
  else if -(xs.length : Int) ≤ i ∧ i < 0 then xs[xs.length - (-i).toNat]?
  else none

/-- qiskit resolves an integer qubit specifier by Python indexing into the
circuit's qubit list (`self.qubits[q]`): `q ∈ [0, n)` directly, `q ∈ [-n, -1]`
from the end, anything else is a `CircuitError` (`none`). -/
def pyQubit (n : ℕ) (q : Int) : Option ℕ :=
  if 0 ≤ q ∧ q < (n : Int) then some q.toNat
  else if -(n : Int) ≤ q ∧ q < 0 then some (n - (-q).toNat)
  else none

/-- One operation of the decoded circuit: a parametrized `rz` rotation
carrying the emission index of its parameter (`theta_{param}`), a `cx` with
its resolved control qubit, or a fixed single-qubit gate. -/
inductive Op : Type
  | rz (param : ℕ) (target : ℕ)
  | cx (control : ℕ) (target : ℕ)
  | h (target : ℕ)
  | x (target : ℕ)
  | sx (target : ℕ)
  deriving DecidableEq, Repr

/-- Decode one gene cell `(gate_code, control_index)` for target qubit `i`
with current parameter counter `t` (`Gene_Circuit.generate_circuit_from_gene`,
body of the cell loop):

* `gate = gene_gates[gate_code]` — Python indexing, so codes in `[-6, -1]`
  silently read the alphabet from the end and anything outside `[-6, 6)` is an
  `IndexError`;
* `control = control_index % num_qubit` only when `control_index >= num_qubit`
  (`ZeroDivisionError` when `num_qubit = 0`), otherwise the raw value;
* `empty` emits nothing; `rz` emits a fresh parameter (counter `t`); `cx`
  skips when `control == i` before qubit resolution, then resolves the control
  as a qiskit qubit specifier and fails when the resolved control collides
  with the target (qiskit's duplicate-argument check); `h`, `x`, `sx` apply to
  qubit `i` directly.  Applying any gate to a target `i ≥ num_qubit` is a
  `CircuitError`. -/
def decodeCell (n : ℕ) (i : ℕ) (t : ℕ) (cell : Int × Int) :
    Option (List Op × ℕ) :=
  match pyGet gene_gates cell.1 with
  | none => none
  | some gate =>
    match (if (n : Int) ≤ cell.2 then
            (if n = 0 then none else some (cell.2 % (n : Int)))
          else some cell.2 : Option Int) with
    | none => none
    | some control =>
      if gate = "empty" then some ([], t)
      else if gate = "rz" then
        if i < n then some ([Op.rz t i], t + 1) else none
      else if gate = "cx" then
        if control = (i : Int) then some ([], t)
        else
          match pyQubit n control with
          | none => none
          | some c =>
            if i < n then
              (if c = i then none else some ([Op.cx c i], t))
            else none
      else if gate = "h" then
        (if i < n then some ([Op.h i], t) else none)
      else if gate = "x" then
        (if i < n then some ([Op.x i], t) else none)
      else
        (if i < n then some ([Op.sx i], t) else none)

/-- Decode a flattened run of `(target qubit, cell)` pairs, threading the
accumulated operation list and the parameter counter, stopping at the first
raised exception. -/
def decodeCells (n : ℕ) : List (ℕ × (Int × Int)) → (List Op × ℕ) →
    Option (List Op × ℕ)
  | [], st => some st
  | (i, cell) :: rest, (ops, t) =>
    match decodeCell n i t cell with
    | none => none
    | some (newOps, t') => decodeCells n rest (ops ++ newOps, t')

/-- The order in which `generate_circuit_from_gene` visits the cells of a
gene: `gene.transpose(1,0,2)` makes the pass position-major, and each column
is enumerated with its row index, which is the target qubit. -/
def decodeOrder (gene : List (List (Int × Int))) : List (ℕ × (Int × Int)) :=
  ((List.transpose gene).map List.enum).flatten

/-- `Gene_Circuit.generate_circuit_from_gene`: decode the gene position-major
with a single monotone parameter counter shared across the pass.  Returns the
operation sequence together with the number of emitted parameters, or `none`
where the Python raises. -/
def generate_circuit_from_gene (gene : List (List (Int × Int))) (num_qubit : ℕ) :
    Option (List Op × ℕ) :=
  decodeCells num_qubit (decodeOrder gene) ([], 0)

/-- A gate code is outside the range Python indexing accepts for the
6-element alphabet exactly when it lies outside `[-6, 6)`. -/
def badGateCode (g : Int) : Prop := g < -6 ∨ 6 ≤ g

instance (g : Int) : Decidable (badGateCode g) := by
  unfold badGateCode; infer_instance

theorem pyGet_gene_gates_none {g : Int} (h : badGateCode g) :
    pyGet gene_gates g = none := by
  have hlen : ((gene_gates.length : ℕ) : Int) = 6 := by decide
  unfold pyGet
  rw [hlen, if_neg, if_neg]
  · rcases h with h | h <;> omega
  · rcases h with h | h <;> omega

theorem decodeCell_badGate (n i t : ℕ) (cell : Int × Int)
    (h : badGateCode cell.1) : decodeCell n i t cell = none := by
  unfold decodeCell
  rw [pyGet_gene_gates_none h]

theorem decodeCells_badGate (n : ℕ) (l : List (ℕ × (Int × Int)))
    (h : ∃ p ∈ l, badGateCode p.2.1) :
    ∀ st, decodeCells n l st = none := by
  induction l with
  | nil => simp at h
  | cons hd tl ih =>
    rintro ⟨ops, t⟩
    rcases h with ⟨p, hp, hbad⟩
    rcases List.mem_cons.mp hp with rfl | hmem
    · simp only [decodeCells, decodeCell_badGate _ _ _ _ hbad]
    · cases hcell : decodeCell n hd.1 t hd.2 with
      | none => simp only [decodeCells]; rw [hcell]
      | some st' =>
        simp only [decodeCells]
        rw [hcell]
        exact ih ⟨p, hmem, hbad⟩ _

/-- A one-qubit, one-position gene whose only cell has gate code `-1`,
outside the alphabet range `0..5`. -/
def geneNegCode : List (List (Int × Int)) := [[(-1, 0)]]

/-- C1, counterexample.  The claim says a gene containing a gate code outside
the gate-alphabet range fails fast with a validation error before decoding and
is never silently decoded.  The gene whose only cell has gate code `-1`
(outside the alphabet range `0..5`) is silently decoded into an `sx` gate:
Python's negative indexing reads the 6-element alphabet from the end and no
validation runs anywhere. -/
theorem C1_counterexample :
    generate_circuit_from_gene geneNegCode 1 = some ([Op.sx 0], 0) := by decide

/-- C1 (amended): there is no validation step before decoding.  A gene
containing a cell whose gate code lies outside `[-6, 6)` does make circuit
construction fail, but with an `IndexError` raised while the decode pass
reaches that cell, not a prior shape or range validation; and gate codes in
`[-6, -1]` — equally outside the alphabet range `0..5` — are silently decoded
via Python negative indexing (`C1_counterexample`). -/
theorem C1_out_of_alphabet_fails (gene : List (List (Int × Int))) (n : ℕ)
    (h : ∃ p ∈ decodeOrder gene, badGateCode p.2.1) :
    generate_circuit_from_gene gene n = none :=
  decodeCells_badGate n (decodeOrder gene) h ([], 0)

/-- Witness for `C1_out_of_alphabet_fails`: the gene `[[(7, 0)]]` (gate code
`7 ≥ 6`) fails to decode. -/
theorem C1_out_of_alphabet_fails_witness :
    generate_circuit_from_gene [[((7 : Int), (0 : Int))]] 1 = none :=
  C1_out_of_alphabet_fails [[(7, 0)]] 1 ⟨(0, (7, 0)), by decide, by decide⟩

/-- Four-qubit gene with a single position: qubits 0–2 `empty`, qubit 3 a
`cx` cell with `control_index = -1`. -/
def geneNegControl : List (List (Int × Int)) :=
  [[(0, 0)], [(0, 0)], [(0, 0)], [(2, -1)]]

/-- C8, counterexample.  Per the claim, `control_index = -1` on qubit 3 of a
4-qubit gene is reduced to `-1 mod 4 = 3`, the cell's own target, so the
self-control policy must produce no operation.  The code only reduces when
`control >= num_qubit`, so `-1` bypasses both the reduction and the
`control == i` skip and reaches `circuit.cx(-1, 3)`, where qiskit resolves
`-1` to qubit 3 and raises a duplicate-qubit `CircuitError`: decoding fails
instead of skipping the cell. -/
theorem C8_counterexample :
    generate_circuit_from_gene geneNegControl 4 = none := by decide

/-- C8 (amended): for a `cx` cell with nonnegative `control_index = c` decoded
on target qubit `i < n`, the decoded control qubit is `c % n`, which lies in
`[0, n)`, and a cell whose reduced control equals its own target produces no
operation.  Negative control indices are not reduced and can fail instead
(`C8_counterexample`). -/
theorem C8_nonneg_control_modulo (n i t : ℕ) (c : Int)
    (hn : 0 < n) (hi : i < n) (hc : 0 ≤ c) :
    c.toNat % n < n ∧
    decodeCell n i t (2, c) =
      some (if c.toNat % n = i then [] else [Op.cx (c.toNat % n) i], t) := by
  have hmod : c.toNat % n < n := Nat.mod_lt _ hn
  refine ⟨hmod, ?_⟩
  have hcx : pyGet gene_gates (2 : Int) = some "cx" := by decide
  have hctl : (if (n : Int) ≤ c then
        (if n = 0 then none else some (c % (n : Int))) else some c : Option Int)
      = some ((c.toNat % n : ℕ) : Int) := by
    rcases le_or_lt (n : Int) c with hle | hlt
    · rw [if_pos hle, if_neg (by omega)]
      have h1 : c = ((c.toNat : ℕ) : Int) := (Int.toNat_of_nonneg hc).symm
      rw [h1]
      norm_cast
    · rw [if_neg (not_le.mpr hlt)]
      have h1 : c.toNat < n := by omega
      rw [Nat.mod_eq_of_lt h1, Int.toNat_of_nonneg hc]
  have hq : pyQubit n ((c.toNat % n : ℕ) : Int) = some (c.toNat % n) := by
    unfold pyQubit
    rw [if_pos ⟨by positivity, by exact_mod_cast hmod⟩]
    norm_cast
  unfold decodeCell
  simp only [hcx, hctl]
  rw [if_neg (by decide), if_neg (by decide), if_pos (by decide)]
  by_cases heq : c.toNat % n = i
  · rw [if_pos (by exact_mod_cast heq), if_pos heq]
  · rw [if_neg (fun hcast => heq (by exact_mod_cast hcast))]
    simp only [hq]
    rw [if_pos hi, if_neg heq, if_neg heq]

/-- Witness for `C8_nonneg_control_modulo`: a `cx` cell with control index 7
on target qubit 0 of a 4-qubit circuit decodes to control `7 % 4 = 3`. -/
theorem C8_nonneg_control_modulo_witness :
    (7 : Int).toNat % 4 < 4 ∧
    decodeCell 4 0 0 (2, 7) =
      some (if (7 : Int).toNat % 4 = 0 then []
            else [Op.cx ((7 : Int).toNat % 4) 0], 0) :=
  C8_nonneg_control_modulo 4 0 0 7 (by decide) (by decide) (by decide)

/-! ### Parameter names and qiskit's name-sorted parameter order

`generate_circuit_from_gene` names the parameter of the `theta_index`-th
emitted rotation `f'theta_{theta_index}'`.  qiskit's
`QuantumCircuit.parameters` — the sequence `bind_parameters` indexes — is the
parameter set sorted by *name* (string comparison).  All names share the
prefix `theta_`, so the string order is the lexicographic order on the
decimal-digit suffixes, modelled here digit-by-digit; names are pairwise
distinct, so the stable `sorted` is modelled by insertion sort. -/

/-- Decimal digits of `n`, most significant first, via fuelled division. -/
def decDigitsFuel : ℕ → ℕ → List ℕ
  | 0, _ => []
  | fuel + 1, n => if n < 10 then [n] else decDigitsFuel fuel (n / 10) ++ [n % 10]

/-- Decimal digit string of `n` (most significant first); `0 ↦ [0]`. -/
def decDigits (n : ℕ) : List ℕ := decDigitsFuel (n + 1) n

/-- Lexicographic comparison of two digit strings, exactly Python's `<` on
the corresponding decimal strings: a proper prefix is smaller. -/
def digitsLt : List ℕ → List ℕ → Bool
  | [], [] => false
  | [], _ :: _ => true
  | _ :: _, [] => false
  | a :: as, b :: bs => if a < b then true else if b < a then false else digitsLt as bs

/-- `theta_a.name < theta_b.name` as Python compares the two name strings:
the common prefix `theta_` cancels, leaving the digit strings. -/
def nameLt (a b : ℕ) : Prop := digitsLt (decDigits a) (decDigits b) = true

instance : DecidableRel nameLt := fun a b => by unfold nameLt; infer_instance

/-- `circuit.parameters` for `k` emitted parameters: the emission indices
`0, …, k-1` sorted by parameter name.  Note this is *not* the numeric order
once two-digit indices appear: `theta_10 < theta_2` as strings. -/
def sortedParams (k : ℕ) : List ℕ := List.insertionSort nameLt (List.range k)

theorem sortedParams_perm (k : ℕ) : (sortedParams k).Perm (List.range k) :=
  List.perm_insertionSort nameLt (List.range k)

/-- The parameter emission index of an operation, when it has one. -/
def rzParam : Op → Option ℕ
  | .rz p _ => some p
  | _ => none

/-- The parameter indices carried by the `rz` operations of `ops`, in circuit
order. -/
def rzParams (ops : List Op) : List ℕ := ops.filterMap rzParam

/-- Each decoded cell either emits the single fresh rotation `theta_t` and
advances the counter, or emits no rotation and keeps it. -/
theorem decodeCell_spec {n i t : ℕ} {cell : Int × Int} {res : List Op × ℕ}
    (h : decodeCell n i t cell = some res) :
    (res.1 = [Op.rz t i] ∧ res.2 = t + 1) ∨ (rzParams res.1 = [] ∧ res.2 = t) := by
  unfold decodeCell at h
  repeat' split at h
  any_goals exact Option.noConfusion h
  all_goals cases h
  all_goals first
    | exact Or.inl ⟨rfl, rfl⟩
    | exact Or.inr ⟨rfl, rfl⟩

theorem decodeCells_rzParams (n : ℕ) (l : List (ℕ × (Int × Int))) :
    ∀ ops t ops' k, decodeCells n l (ops, t) = some (ops', k) →
      rzParams ops = List.range t → rzParams ops' = List.range k := by
  induction l with
  | nil =>
    intro ops t ops' k h hinv
    cases h
    exact hinv
  | cons hd tl ih =>
    obtain ⟨i, cell⟩ := hd
    intro ops t ops' k h hinv
    simp only [decodeCells] at h
    cases hcell : decodeCell n i t cell with
    | none => rw [hcell] at h; exact Option.noConfusion h
    | some st' =>
      obtain ⟨newOps, t'⟩ := st'
      rw [hcell] at h
      refine ih _ _ _ _ h ?_
      rw [rzParams, List.filterMap_append]
      rcases decodeCell_spec hcell with ⟨h1, h2⟩ | ⟨h1, h2⟩
      · simp only at h1 h2
        subst h1 h2
        rw [← rzParams]
        rw [hinv, List.range_succ]
        rfl
      · simp only at h1 h2
        subst h2
        rw [← rzParams, ← rzParams, h1, hinv, List.append_nil]

/-- Decode invariant: the rotations of a decoded circuit carry the parameter
indices `0, …, k-1` in emission order, where `k` is `num_parameters`. -/
theorem generate_rzParams {gene : List (List (Int × Int))} {n : ℕ}
    {ops : List Op} {k : ℕ}
    (h : generate_circuit_from_gene gene n = some (ops, k)) :
    rzParams ops = List.range k :=
  decodeCells_rzParams n (decodeOrder gene) [] 0 ops k h rfl

/-- An operation of a partially bound circuit: a rotation bound to a value, a
rotation still carrying its named parameter, or an unparametrized gate. -/
inductive BOp : Type
  | rz (value : ℚ) (target : ℕ)
  | rzP (param : ℕ) (target : ℕ)
  | cx (control : ℕ) (target : ℕ)
  | h (target : ℕ)
  | x (target : ℕ)
  | sx (target : ℕ)
  deriving DecidableEq, Repr

/-- Substitute one operation under the binding dict `pairs` (parameter
emission index ↦ value): a rotation whose parameter is in the dict becomes a
bound rotation, one whose parameter is absent stays parametrized, every other
gate is untouched. -/
def substOp (pairs : List (ℕ × ℚ)) : Op → BOp
  | .rz p tgt =>
    match pairs.lookup p with
    | some v => .rz v tgt
    | none => .rzP p tgt
  | .cx c tgt => .cx c tgt
  | .h tgt => .h tgt
  | .x tgt => .x tgt
  | .sx tgt => .sx tgt

/-- `Gene_Circuit.bind_parameters(theta)`: builds the dict
`{self.circuit.parameters[i]: theta[i] for i in range(len(theta))}` — the
i-th parameter in qiskit's *name-sorted* order paired with `theta[i]`, an
`IndexError` (`none`) when `len(theta) > num_parameters` — and substitutes it
into the circuit.  Parameters not in the dict stay unbound: qiskit allows
partial binding, and no length validation is performed. -/
def bind_parameters (ops : List Op) (k : ℕ) (θ : List ℚ) : Option (List BOp) :=
  if k < θ.length then none
  else some (ops.map (substOp ((sortedParams k).zip θ)))

theorem lookup_cons_self {a : ℕ} {v : ℚ} {rest : List (ℕ × ℚ)} :
    List.lookup a ((a, v) :: rest) = some v := by
  simp [List.lookup]

theorem lookup_cons_ne {a p : ℕ} {v : ℚ} {rest : List (ℕ × ℚ)} (h : p ≠ a) :
    List.lookup p ((a, v) :: rest) = List.lookup p rest := by
  have hb : (p == a) = false := beq_eq_false_iff_ne.mpr h
  simp [List.lookup, hb]

theorem lookup_range'_zip (θ : List ℚ) :
    ∀ s p : ℕ, s ≤ p → p < s + θ.length →
      ((List.range' s θ.length).zip θ).lookup p = some (θ.getD (p - s) 0) := by
  induction θ with
  | nil => intro s p h1 h2; exact absurd h2 (by rw [List.length_nil]; omega)
  | cons v θ' ih =>
    intro s p h1 h2
    rw [List.length_cons, List.range'_succ, List.zip_cons_cons]
    by_cases hps : p = s
    · subst hps
      rw [lookup_cons_self, Nat.sub_self]
      rfl
    · rw [lookup_cons_ne hps]
      have h1' : s + 1 ≤ p := by omega
      rw [ih (s + 1) p h1' (by simp at h2 ⊢; omega)]
      congr 1
      have : p - s = (p - (s + 1)) + 1 := by omega
      rw [this]
      rfl

theorem lookup_range_zip (k p : ℕ) (θ : List ℚ) (hlen : θ.length = k)
    (hp : p < k) :
    ((List.range k).zip θ).lookup p = some (θ.getD p 0) := by
  subst hlen
  rw [List.range_eq_range']
  simpa using lookup_range'_zip θ 0 p (Nat.zero_le p) (by omega)

/-- C7 (amended): `bind_parameters` substitutes `theta[i]` for the i-th
parameter in qiskit's *name-sorted* order, which coincides with the emission
order exactly while all parameter indices are single decimal digits, i.e.
while `num_parameters ≤ 10`: then every emitted rotation `theta_p` receives
`theta[p]` and the parameter vector binds unambiguously.  From 11 parameters
on, name order diverges from emission order (`C7_counterexample`). -/
theorem C7_binding_emission_order (gene : List (List (Int × Int))) (n : ℕ)
    (ops : List Op) (k : ℕ) (θ : List ℚ)
    (hdec : generate_circuit_from_gene gene n = some (ops, k))
    (hk : k ≤ 10) (hθ : θ.length = k) :
    bind_parameters ops k θ = some (ops.map (fun op =>
      match op with
      | .rz p tgt => BOp.rz (θ.getD p 0) tgt
      | .cx c tgt => .cx c tgt
      | .h tgt => .h tgt
      | .x tgt => .x tgt
      | .sx tgt => .sx tgt)) := by
  have hsorted : sortedParams k = List.range k := by
    interval_cases k <;> decide
  unfold bind_parameters
  rw [if_neg (by omega), hsorted]
  congr 1
  apply List.map_congr_left
  intro op hop
  cases op with
  | rz p tgt =>
    have hp : p ∈ rzParams ops := List.mem_filterMap.mpr ⟨_, hop, rfl⟩
    rw [generate_rzParams hdec] at hp
    simp only [substOp]
    rw [lookup_range_zip k p θ hθ (List.mem_range.mp hp)]
  | cx c tgt => rfl
  | h tgt => rfl
  | x tgt => rfl
  | sx tgt => rfl

/-- Witness for `C7_binding_emission_order`: a one-qubit gene of three `rz`
cells, bound with `theta = [5, 7, 9]`. -/
theorem C7_binding_emission_order_witness :
    bind_parameters [Op.rz 0 0, Op.rz 1 0, Op.rz 2 0] 3 [5, 7, 9] =
      some ([Op.rz 0 0, Op.rz 1 0, Op.rz 2 0].map (fun op =>
        match op with
        | .rz p tgt => BOp.rz (([5, 7, 9] : List ℚ).getD p 0) tgt
        | .cx c tgt => .cx c tgt
        | .h tgt => .h tgt
        | .x tgt => .x tgt
        | .sx tgt => .sx tgt)) :=
  C7_binding_emission_order [[(1, 0), (1, 0), (1, 0)]] 1
    [Op.rz 0 0, Op.rz 1 0, Op.rz 2 0] 3 [5, 7, 9] (by decide) (by decide) rfl

/-- A one-qubit gene of eleven `rz` cells. -/
def geneEleven : List (List (Int × Int)) := [List.replicate 11 (1, 0)]

/-- Its decoded circuit: eleven rotations with parameters
`theta_0 … theta_10` in emission order. -/
def opsEleven : List Op := (List.range 11).map fun p => Op.rz p 0

/-- C7, counterexample.  With 11 parameters, `circuit.parameters` sorts the
names as strings, so `theta_10` sits between `theta_1` and `theta_2`.
Binding `theta = [0, 1, …, 10]` gives the rotation emitted last (parameter
index 10, the element at circuit position 10) the value `theta[2] = 2`
instead of `theta[10] = 10`: the claimed emission-order binding fails. -/
theorem C7_counterexample :
    generate_circuit_from_gene geneEleven 1 = some (opsEleven, 11) ∧
    sortedParams 11 = [0, 1, 10, 2, 3, 4, 5, 6, 7, 8, 9] ∧
    (bind_parameters opsEleven 11 ((List.range 11).map (fun i => (i : ℚ)))).map
        (fun bops => bops.getD 10 (BOp.h 0))
      = some (BOp.rz 2 0) := by decide

/-- The value of a bound rotation, if the operation is one. -/
def boundValue : BOp → Option ℚ
  | .rz v _ => some v
  | _ => none

/-- The parameter of a still-unbound rotation, if the operation is one. -/
def unboundParam : BOp → Option ℕ
  | .rzP p _ => some p
  | _ => none

theorem lookup_zip_split :
    ∀ (l : List ℕ) (θ : List ℚ), l.Nodup → θ.length ≤ l.length →
      l.filterMap (fun p => (l.zip θ).lookup p) = θ ∧
      l.filterMap (fun p =>
        match (l.zip θ).lookup p with
        | some _ => none
        | none => some p) = l.drop θ.length := by
  intro l
  induction l with
  | nil =>
    intro θ _ hlen
    have hθ : θ = [] := List.eq_nil_of_length_eq_zero (by simpa using hlen)
    subst hθ
    exact ⟨rfl, rfl⟩
  | cons a l' ih =>
    intro θ hnd hlen
    have hna : a ∉ l' := (List.nodup_cons.mp hnd).1
    have hnd' : l'.Nodup := (List.nodup_cons.mp hnd).2
    cases θ with
    | nil =>
      constructor
      · simp [List.lookup]
      · simp [List.lookup]
    | cons v θ' =>
      have hlen' : θ'.length ≤ l'.length := by simpa using hlen
      obtain ⟨ih1, ih2⟩ := ih θ' hnd' hlen'
      rw [List.zip_cons_cons]
      constructor
      · simp only [List.filterMap_cons, lookup_cons_self]
        congr 1
        rw [List.filterMap_congr (g := fun p => (l'.zip θ').lookup p) ?_]
        · exact ih1
        · intro p hp
          apply lookup_cons_ne
          intro hpa
          exact hna (hpa ▸ hp)
      · simp only [List.filterMap_cons, lookup_cons_self, List.length_cons,
          List.drop_succ_cons]
        rw [List.filterMap_congr
            (g := fun p => match (l'.zip θ').lookup p with
                  | some _ => none
                  | none => some p) ?_]
        · exact ih2
        · intro p hp
          rw [lookup_cons_ne ?_]
          intro hpa
          exact hna (hpa ▸ hp)

/-- C10 (confirmed): binding a parameter vector shorter than
`num_parameters` returns a circuit without raising — there is no length
validation — in which exactly `len(theta)` rotations are bound (the first
`len(theta)` parameters of qiskit's name-sorted order, receiving the values
of `theta` in order, hence the permutation) and the remaining
`num_parameters - len(theta)` rotations stay unbound. -/
theorem C10_short_theta_partial_binding (gene : List (List (Int × Int)))
    (n : ℕ) (ops : List Op) (k : ℕ) (θ : List ℚ)
    (hdec : generate_circuit_from_gene gene n = some (ops, k))
    (hθ : θ.length < k) :
    ∃ bops, bind_parameters ops k θ = some bops ∧
      (bops.filterMap boundValue).Perm θ ∧
      (bops.filterMap unboundParam).length = k - θ.length := by
  have hperm := sortedParams_perm k
  have hnd : (sortedParams k).Nodup := hperm.nodup_iff.mpr (List.nodup_range k)
  have hlen : θ.length ≤ (sortedParams k).length := by
    rw [hperm.length_eq, List.length_range]; omega
  obtain ⟨hsplit1, hsplit2⟩ := lookup_zip_split (sortedParams k) θ hnd hlen
  refine ⟨_, by unfold bind_parameters; rw [if_neg (by omega)], ?_, ?_⟩
  · rw [List.filterMap_map]
    have hcomp : (boundValue ∘ substOp ((sortedParams k).zip θ))
        = fun op => (rzParam op).bind
            (fun p => ((sortedParams k).zip θ).lookup p) := by
      funext op
      cases op with
      | rz p tgt =>
        simp only [Function.comp_apply, substOp, rzParam, Option.bind]
        cases ((sortedParams k).zip θ).lookup p <;> rfl
      | cx c tgt => rfl
      | h tgt => rfl
      | x tgt => rfl
      | sx tgt => rfl
    rw [hcomp, ← List.filterMap_filterMap, ← rzParams, generate_rzParams hdec]
    exact (List.Perm.filterMap _ hperm.symm).trans (by rw [hsplit1])
  · rw [List.filterMap_map]
    have hcomp : (unboundParam ∘ substOp ((sortedParams k).zip θ))
        = fun op => (rzParam op).bind
            (fun p => match ((sortedParams k).zip θ).lookup p with
                      | some _ => none
                      | none => some p) := by
      funext op
      cases op with
      | rz p tgt =>
        simp only [Function.comp_apply, substOp, rzParam, Option.bind]
        cases ((sortedParams k).zip θ).lookup p <;> rfl
      | cx c tgt => rfl
      | h tgt => rfl
      | x tgt => rfl
      | sx tgt => rfl
    rw [hcomp, ← List.filterMap_filterMap, ← rzParams, generate_rzParams hdec]
    have hlenperm := (List.Perm.filterMap
        (fun p => match ((sortedParams k).zip θ).lookup p with
                  | some _ => none
                  | none => some p) hperm.symm).length_eq
    rw [hlenperm, hsplit2, List.length_drop, hperm.length_eq, List.length_range]

/-- Witness for `C10_short_theta_partial_binding`: the three-rotation circuit
bound with the two-entry vector `[5, 7]`. -/
theorem C10_short_theta_partial_binding_witness :
    ∃ bops, bind_parameters [Op.rz 0 0, Op.rz 1 0, Op.rz 2 0] 3 [5, 7]
        = some bops ∧
      (bops.filterMap boundValue).Perm [5, 7] ∧
      (bops.filterMap unboundParam).length = 3 - ([5, 7] : List ℚ).length :=
  C10_short_theta_partial_binding [[(1, 0), (1, 0), (1, 0)]] 1
    [Op.rz 0 0, Op.rz 1 0, Op.rz 2 0] 3 [5, 7] (by decide) (by decide)

/-! ### GA.py: the adaptive fidelity-threshold search

```
ii = 0
while (True and ii<100):
    gene = result[:,0]>0.99 - 0.01*ii
    ii += 1
    if np.sum(gene)>=6:
        break
```
Machine floats are modelled by exact rationals; at the boundary cases used
below the float comparisons agree with the exact ones (`0.99 > 0.99 - 0.01*0`
is false in both). -/

/-- The threshold tried at iteration `ii`: `0.99 - 0.01*ii`, in exact
arithmetic `(99 - ii)/100`, written with `mkRat` so that the kernel can
evaluate it (`threshold_eq_sub` ties it to the source expression). -/
def threshold (ii : ℕ) : ℚ := mkRat (99 - (ii : ℤ)) 100

theorem threshold_eq_sub (ii : ℕ) :
    threshold ii = 99/100 - (ii : ℚ)/100 := by
  unfold threshold
  rw [Rat.mkRat_eq_div]
  push_cast
  ring

/-- `np.sum(result[:,0] > thr)`: how many genes have fidelity *strictly*
greater than `thr`. -/
def countAbove (fids : List ℚ) (thr : ℚ) : ℕ :=
  (fids.filter (fun f => decide (thr < f))).length

/-- The lowering loop, by remaining fuel (100 iterations): returns the
iteration index whose mask the loop leaves behind — the first `ii` whose
strict count reaches the quorum of 6, or the last tried index when the fuel
runs out. -/
def thLoop (fids : List ℚ) : ℕ → ℕ → ℕ
  | ii, 0 => ii - 1
  | ii, fuel + 1 =>
    if 6 ≤ countAbove fids (threshold ii) then ii else thLoop fids (ii + 1) fuel

theorem thLoop_step (fids : List ℚ) (ii fuel : ℕ) :
    thLoop fids ii (fuel + 1)
      = if 6 ≤ countAbove fids (threshold ii) then ii
        else thLoop fids (ii + 1) fuel := rfl

/-- The index the search settles on; it equals the number of lowering steps
performed when the quorum is reached. -/
def maskIndex (fids : List ℚ) : ℕ := thLoop fids 0 100

/-- The fidelity threshold the search settles on. -/
def finalThreshold (fids : List ℚ) : ℚ := threshold (maskIndex fids)

/-- The pass mask `gene` handed to the elite selection. -/
def passMask (fids : List ℚ) : List Bool :=
  fids.map (fun f => decide (finalThreshold fids < f))

/-- The loop stops at the first index whose strict count meets the quorum. -/
theorem thLoop_first_hit (fids : List ℚ) :
    ∀ fuel ii j, j < fuel →
      (∀ m, m < j → countAbove fids (threshold (ii + m)) < 6) →
      6 ≤ countAbove fids (threshold (ii + j)) →
      thLoop fids ii fuel = ii + j := by
  intro fuel
  induction fuel with
  | zero => intro ii j hj _ _; omega
  | succ fuel ih =>
    intro ii j hj hlow hhit
    rw [thLoop_step]
    by_cases hj0 : j = 0
    · subst hj0
      rw [if_pos (by simpa using hhit)]
      omega
    · rw [if_neg ?_]
      · have hrest : ∀ m, m < j - 1 →
            countAbove fids (threshold (ii + 1 + m)) < 6 := by
          intro m hm
          have := hlow (m + 1) (by omega)
          rw [show ii + 1 + m = ii + (m + 1) from by omega]
          exact this
        have hhit' : 6 ≤ countAbove fids (threshold (ii + 1 + (j - 1))) := by
          rw [show ii + 1 + (j - 1) = ii + j from by omega]
          exact hhit
        rw [ih (ii + 1) (j - 1) (by omega) hrest hhit']
        omega
      · have := hlow 0 (by omega)
        simp only [Nat.add_zero] at this
        omega

/-- A population of 20 fidelities: six exactly `0.99`, fourteen `0`. -/
def fidsBoundary : List ℚ :=
  List.replicate 6 (mkRat 99 100) ++ List.replicate 14 0

/-- C2, counterexample.  The claim counts genes with fidelity `≥ threshold`;
the code's mask is `result[:,0] > 0.99 - 0.01*ii`, a *strict* comparison.
With six genes at fidelity exactly `0.99`, the claimed `≥`-quorum is met at
the starting threshold `0.99` with zero lowering steps, but the code counts
zero genes strictly above `0.99` and settles at `0.98` instead.  (Float
arithmetic agrees: `0.99 > 0.99 - 0.01*0` is false.) -/
theorem C2_counterexample :
    6 ≤ (fidsBoundary.filter (fun f => decide (mkRat 99 100 ≤ f))).length ∧
    finalThreshold fidsBoundary = mkRat 98 100 := by decide

/-- C2 (amended): the search starts at `0.99` and lowers by `0.01` per
iteration (at most 100 iterations), counting genes with fidelity *strictly
greater* than the threshold against the quorum of 6.  For every population in
which the quorum is missed at `0.99, 0.98, 0.97, 0.96` and met at `0.95` —
e.g. 20 genes of which only 3 exceed `0.99` (and none other exceeds `0.96`)
while 8 exceed `0.95` — the search settles at threshold `0.95` after 4
lowering steps. -/
theorem C2_threshold_settles (fids : List ℚ)
    (hlow : ∀ j, j < 4 → countAbove fids (threshold j) < 6)
    (hhit : 6 ≤ countAbove fids (threshold 4)) :
    maskIndex fids = 4 ∧ finalThreshold fids = mkRat 95 100 := by
  have hmask : maskIndex fids = 4 := by
    have := thLoop_first_hit fids 100 0 4 (by omega)
      (fun m hm => by simpa using hlow m hm) (by simpa using hhit)
    simpa [maskIndex] using this
  refine ⟨hmask, ?_⟩
  rw [finalThreshold, hmask]
  decide

/-- Witness population for `C2_threshold_settles`: 3 genes at fidelity
`0.996`, 5 at `0.951`, 12 at `0.5`. -/
def fidsScenario : List ℚ :=
  List.replicate 3 (mkRat 996 1000) ++ List.replicate 5 (mkRat 951 1000) ++
    List.replicate 12 (mkRat 1 2)

/-- Witness for `C2_threshold_settles` on `fidsScenario`. -/
theorem C2_threshold_settles_witness :
    maskIndex fidsScenario = 4 ∧ finalThreshold fidsScenario = mkRat 95 100 :=
  C2_threshold_settles fidsScenario (by decide) (by decide)

/-! ### GA.py: elite selection

```
index=np.array([]).astype(int)
for j in np.argsort(result[:,1]):
    if gene[j]:
        index=np.append(index,j)
        if len(index)==10:
            break
```

`np.argsort` is called with its default `kind='quicksort'`.  `result` is an
object-dtype array, so numpy dispatches the argsort of the depth column to its
generic `npy_aquicksort`: an introsort over the index array — median-of-3
pivot, Hoare-style partition scans, segments of at most 16 elements finished
by insertion sort, comparisons through the element type's compare function
(Python `<` on the depths).  That algorithm is embedded below, operating on
the index list `t` with the depth column `v` as sort key.  The heapsort
fallback at depth limit `2·log₂ n` is unreachable for the 20-element
populations of this program (a 20-element range admits at most 4 partition
steps before every segment is below the insertion-sort cutoff) and is not
modelled.  This sort is deterministic but *not stable*. -/

/-- `t[i]` with numpy's in-range accesses (reads outside the list, which the
algorithm never performs, default to 0). -/
def lget (t : List ℕ) (i : ℕ) : ℕ := t.getD i 0

/-- `t[i] = x`. -/
def lset (t : List ℕ) (i x : ℕ) : List ℕ := t.set i x

/-- `INTP_SWAP(t[a], t[b])`. -/
def lswap (t : List ℕ) (a b : ℕ) : List ℕ := (t.set a (lget t b)).set b (lget t a)

/-- `do ++pi; while (v[t[pi]] < pivot);` — returns the final `pi`. -/
def scanUp (v t : List ℕ) (pivot : ℕ) : ℕ → ℕ → ℕ
  | pi, 0 => pi + 1
  | pi, fuel + 1 =>
    if lget v (lget t (pi + 1)) < pivot then scanUp v t pivot (pi + 1) fuel
    else pi + 1

/-- `do --pj; while (pivot < v[t[pj]]);` — returns the final `pj`. -/
def scanDown (v t : List ℕ) (pivot : ℕ) : ℕ → ℕ → ℕ
  | pj, 0 => pj - 1
  | pj, fuel + 1 =>
    if pivot < lget v (lget t (pj - 1)) then scanDown v t pivot (pj - 1) fuel
    else pj - 1

/-- The Hoare partition loop: scan up and down, swap while the pointers have
not crossed; returns the updated index list and the crossing position. -/
def partLoop (v : List ℕ) (pivot : ℕ) : List ℕ → ℕ → ℕ → ℕ → (List ℕ × ℕ)
  | t, pi, _, 0 => (t, pi)
  | t, pi, pj, fuel + 1 =>
    let pi' := scanUp v t pivot pi (t.length + 1)
    let pj' := scanDown v t pivot pj (t.length + 1)
    if pj' ≤ pi' then (t, pi')
    else partLoop v pivot (lswap t pi' pj') pi' pj' fuel

/-- Inner while of the insertion sort: shift greater keys one slot to the
right, structurally on `pj`; returns the shifted list and the insertion
slot. -/
def insShift (v : List ℕ) (key pl : ℕ) : List ℕ → ℕ → (List ℕ × ℕ)
  | t, 0 => (t, 0)
  | t, pj + 1 =>
    if pl < pj + 1 ∧ key < lget v (lget t pj) then
      insShift v key pl (lset t (pj + 1) (lget t pj)) pj
    else (t, pj + 1)

/-- Outer loop of the insertion sort over `cnt` remaining positions. -/
def insLoop (v : List ℕ) (pl : ℕ) : List ℕ → ℕ → ℕ → List ℕ
  | t, _, 0 => t
  | t, pi, cnt + 1 =>
    let vi := lget t pi
    let res := insShift v (lget v vi) pl t pi
    insLoop v pl (lset res.1 res.2 vi) (pi + 1) cnt

/-- Insertion sort of the segment `[pl, pr]` (inclusive) of the index list. -/
def insSort (v t : List ℕ) (pl pr : ℕ) : List ℕ := insLoop v pl t (pl + 1) (pr - pl)

/-- The introsort driver: partition segments longer than 16, pushing the
larger half on an explicit stack, insertion-sort the rest. -/
def introLoop (v : List ℕ) : List ℕ → ℕ → ℕ → List (ℕ × ℕ) → ℕ → List ℕ
  | t, _, _, _, 0 => t
  | t, pl, pr, stack, fuel + 1 =>
    if 15 < pr - pl then
      let pm := pl + (pr - pl) / 2
      let t := if lget v (lget t pm) < lget v (lget t pl) then lswap t pm pl else t
      let t := if lget v (lget t pr) < lget v (lget t pm) then lswap t pr pm else t
      let t := if lget v (lget t pm) < lget v (lget t pl) then lswap t pm pl else t
      let pivot := lget v (lget t pm)
      let t := lswap t pm (pr - 1)
      let res := partLoop v pivot t pl (pr - 1) (t.length + 1)
      let t := lswap res.1 res.2 (pr - 1)
      let pi := res.2
      if pi - pl < pr - pi then
        introLoop v t pl (pi - 1) ((pi + 1, pr) :: stack) fuel
      else
        introLoop v t (pi + 1) pr ((pl, pi - 1) :: stack) fuel
    else
      let t := insSort v t pl pr
      match stack with
      | [] => t
      | (pl', pr') :: s => introLoop v t pl' pr' s fuel

/-- `np.argsort(v)` with the default `quicksort` kind on an object column:
numpy's `npy_aquicksort` of the index range by the keys `v`. -/
def np_argsort (v : List ℕ) : List ℕ :=
  introLoop v (List.range v.length) 0 (v.length - 1) [] (2 * v.length + 2)

/-- The elite-collection loop: walk the argsort order, append every index the
mask passes, stop as soon as ten are collected. -/
def collect (mask : List Bool) : List ℕ → List ℕ → List ℕ
  | [], acc => acc
  | j :: rest, acc =>
    if mask.getD j false then
      let acc' := acc ++ [j]
      if acc'.length = 10 then acc' else collect mask rest acc'
    else collect mask rest acc

/-- The selected elite indices for a pass mask and depth column. -/
def selectElites (mask : List Bool) (depths : List ℕ) : List ℕ :=
  collect mask (np_argsort depths) []

/-- Elite selection of a generation, from the fidelity column (through the
threshold search's mask `gene`) and the depth column. -/
def eliteIndices (fids : List ℚ) (depths : List ℕ) : List ℕ :=
  selectElites (passMask fids) depths

theorem collect_eq_take_filter (mask : List Bool) :
    ∀ (ord acc : List ℕ), acc.length < 10 →
      collect mask ord acc
        = (acc ++ ord.filter (fun j => mask.getD j false)).take 10 := by
  intro ord
  induction ord with
  | nil =>
    intro acc hacc
    simp only [collect, List.filter_nil, List.append_nil]
    exact (List.take_of_length_le (by omega)).symm
  | cons j rest ih =>
    intro acc hacc
    simp only [collect]
    by_cases hm : mask.getD j false
    · rw [if_pos hm, List.filter_cons_of_pos (by simpa using hm)]
      have hassoc : acc ++ j :: rest.filter (fun j => mask.getD j false)
          = (acc ++ [j]) ++ rest.filter (fun j => mask.getD j false) := by
        simp
      by_cases hlen : (acc ++ [j]).length = 10
      · rw [if_pos hlen, hassoc, List.take_left' hlen]
      · rw [if_neg hlen, ih (acc ++ [j]) (by simp at hlen ⊢; omega), hassoc]
    · rw [if_neg hm, List.filter_cons_of_neg (by simpa using hm), ih acc hacc]

/-- The 20 pairwise-distinct depths used to exhibit the ascending-by-depth
selection. -/
def depthsDistinct : List ℕ :=
  [5, 3, 8, 1, 9, 2, 7, 4, 6, 0, 15, 13, 18, 11, 19, 12, 17, 14, 16, 10]

/-- A population in which every gene has fidelity 1, so every gene passes the
threshold mask. -/
def fidsPerfect : List ℚ := List.replicate 20 1

set_option maxRecDepth 1000000 in
/-- C3 (amended): elite selection takes, among the genes passing the
(possibly lowered) threshold mask, the first up to `elite_count = 10` in
`np.argsort(depth)` order — ascending by depth, but with ties broken by the
order numpy's unstable introsort leaves the index array in, *not* by original
population index (`C3_counterexample`).  The second conjunct exhibits the
ascending-by-depth selection on 20 all-passing genes of pairwise-distinct
depths: the ten selected depths are `0 … 9` in order. -/
theorem C3_elite_selection :
    (∀ (fids : List ℚ) (depths : List ℕ),
      eliteIndices fids depths
        = ((np_argsort depths).filter
            (fun j => (passMask fids).getD j false)).take 10) ∧
    (eliteIndices fidsPerfect depthsDistinct).map
        (fun j => depthsDistinct.getD j 0)
      = [0, 1, 2, 3, 4, 5, 6, 7, 8, 9] := by
  constructor
  · intro fids depths
    unfold eliteIndices selectElites
    rw [collect_eq_take_filter _ _ [] (by simp)]
    rfl
  · decide

set_option maxRecDepth 1000000 in
/-- C3, counterexample.  Twenty genes, all passing, all of equal depth: the
claimed stable tie-breaking by original index would select `[0, 1, …, 9]`.
numpy's introsort argsort performs one partition pass on the 20-element index
range (median-of-3, all keys equal), which reverses the segment between the
pivot swaps, and the selection is `[0, 17, 16, 15, 14, 13, 12, 11, 10, 9]`. -/
theorem C3_counterexample :
    eliteIndices fidsPerfect (List.replicate 20 1)
      = [0, 17, 16, 15, 14, 13, 12, 11, 10, 9] ∧
    eliteIndices fidsPerfect (List.replicate 20 1)
      ≠ (List.range 20).take 10 := by decide

/-! ### GA.py: crossover, mutation, regeneration, elitism

```
child_gene = np.zeros((num_genes,length_gene)).astype(int)
for j in range(num_genes):
    parent = [np.random.randint(0,len(index)), np.random.randint(0,len(index))]
    while parent[0]==parent[1]:
        parent[1]=np.random.randint(0,len(index))
    crossover_point = np.random.randint(1,length_gene-1)
    child_gene[j] = np.concatenate((parent_gene[parent[0]][:crossover_point],
                                    parent_gene[parent[1]][crossover_point:]))
    for k in range(length_gene):
        if np.random.rand()<mutation_rate:
            child_gene[j][k]=np.random.randint(0,11)
child_gene[num_genes-int(num_genes/10):] = fresh random rows
child_gene[num_genes-int(num_genes/10)-len(index):num_genes-int(num_genes/10)]
    = random_gene[index]
```

Randomness is passed in as explicit entropy: a draw of
`np.random.randint(lo, hi)` with entropy `r` is `lo + r % (hi - lo)`, which
realizes exactly the documented support `[lo, hi)`; `hi ≤ lo` raises
`ValueError` (reachable below as `lo = hi = 0` when the elite set is empty). -/

/-- `num_genes = 20` (GA.py module constant). -/
def num_genes : ℕ := 20

/-- `length_gene = 10` (GA.py module constant). -/
def length_gene : ℕ := 10

/-- How a generation step fails. -/
inductive GAErr : Type
  | valueError
  | hang
  | shapeMismatch
  deriving DecidableEq, Repr

/-- The second-parent resampling loop `while parent[0]==parent[1]:
parent[1]=np.random.randint(0,len)` over a finite list of entropy draws; when
the draws run out while still colliding, the loop has not terminated
(`hang`).  With a single elite every draw reduces to 0, so *every* finite
budget hangs: this is how the non-terminating Python loop surfaces in the
embedding. -/
def resample (len p0 : ℕ) : ℕ → List ℕ → Except GAErr (ℕ × ℕ)
  | p1, [] => if p1 = p0 then .error .hang else .ok (p0, p1)
  | p1, d :: ds => if p1 = p0 then resample len p0 (d % len) ds else .ok (p0, p1)

/-- Parent selection for one offspring: two draws from `randint(0, len)` — a
`ValueError` when `len = 0` — then resampling while the two collide. -/
def pickParents (len d0 d1 : ℕ) (ds : List ℕ) : Except GAErr (ℕ × ℕ) :=
  if len = 0 then .error .valueError
  else resample len (d0 % len) (d1 % len) ds

/-- `crossover_point = np.random.randint(1, length_gene-1)`: entropy `r`
realizes `1 + r % ((length_gene - 1) - 1)`, covering exactly the support
`[1, length_gene - 2]` of the half-open range `[1, length_gene - 1)`. -/
def crossoverPointDraw (r : ℕ) : ℕ := 1 + r % (length_gene - 1 - 1)

/-- `np.concatenate((A[:cp], B[cp:]))`: parent 1's prefix before the
crossover point, parent 2's suffix from it on. -/
def crossoverChild (A B : List ℕ) (cp : ℕ) : List ℕ := A.take cp ++ B.drop cp

/-- Per-position mutation: position `k` whose `np.random.rand()` draw fell
below `mutation_rate` (`hits k = some r`) is replaced by `randint(0,11)`,
realized as `r % 11`; `hits k = none` models a draw at or above the rate. -/
def mutateChild (hits : ℕ → Option ℕ) (child : List ℕ) : List ℕ :=
  child.mapIdx fun k g =>
    match hits k with
    | none => g
    | some r => r % 11

/-- The entropy one generation step consumes: per offspring `j` the two
parent draws, the resampling draws, the crossover-point draw and the mutation
hits; plus the entropy of the fresh random rows. -/
structure StepDraws : Type where
  d0 : ℕ → ℕ
  d1 : ℕ → ℕ
  ds : ℕ → List ℕ
  cp : ℕ → ℕ
  mutHits : ℕ → ℕ → Option ℕ
  fresh : ℕ → ℕ → ℕ

/-- Effectful map in source order: the `for j in range(num_genes)` loop,
stopping at the first raised exception. -/
def mapE {α β : Type} (f : α → Except GAErr β) : List α → Except GAErr (List β)
  | [] => .ok []
  | a :: l =>
    match f a with
    | .error e => .error e
    | .ok b =>
      match mapE f l with
      | .error e => .error e
      | .ok bs => .ok (b :: bs)

/-- Offspring `j`: pick two distinct parents among the elites, pick the
crossover point, concatenate prefix and suffix — the row assignment
`child_gene[j] = …` needs exactly `length_gene` entries — then mutate
per position. -/
def makeChild (parents : List (List ℕ)) (dr : StepDraws) (j : ℕ) :
    Except GAErr (List ℕ) :=
  match pickParents parents.length (dr.d0 j) (dr.d1 j) (dr.ds j) with
  | .error e => .error e
  | .ok p =>
    let cp := crossoverPointDraw (dr.cp j)
    let child := crossoverChild (parents.getD p.1 []) (parents.getD p.2 []) cp
    if child.length = length_gene then .ok (mutateChild (dr.mutHits j) child)
    else .error .shapeMismatch

/-- One full generation step after elite selection (`parents =
random_gene[index]`): build `num_genes` crossover+mutation offspring,
overwrite the last `int(num_genes/10) = 2` rows with fresh random genes and
the `len(index)` rows before them with the unmutated elites.  The elite slice
assignment `child_gene[18-len:18] = parent_gene` requires `len ≤ 18` and
elite rows of exactly `length_gene` entries, else numpy raises a broadcast
error. -/
def nextPopulation (parents : List (List ℕ)) (dr : StepDraws) :
    Except GAErr (List (List ℕ)) :=
  match mapE (makeChild parents dr) (List.range num_genes) with
  | .error e => .error e
  | .ok children =>
    if parents.length ≤ num_genes - num_genes / 10 ∧
        (∀ row ∈ parents, row.length = length_gene) then
      let freshRows := (List.range (num_genes / 10)).map fun j =>
        (List.range length_gene).map fun k => dr.fresh j k % 11
      .ok (children.take (num_genes - num_genes / 10 - parents.length)
            ++ parents ++ freshRows)
    else .error .shapeMismatch

/-- A successful parent pick has distinct parents. -/
theorem resample_ok {len p0 : ℕ} {q : ℕ × ℕ} :
    ∀ {p1 : ℕ} {ds : List ℕ}, resample len p0 p1 ds = .ok q →
      q.1 = p0 ∧ q.2 ≠ p0 := by
  intro p1 ds
  induction ds generalizing p1 with
  | nil =>
    intro h
    by_cases hp : p1 = p0
    · rw [resample, if_pos hp] at h; exact Except.noConfusion h
    · rw [resample, if_neg hp] at h; cases h; exact ⟨rfl, hp⟩
  | cons d ds ih =>
    intro h
    by_cases hp : p1 = p0
    · rw [resample, if_pos hp] at h; exact ih h
    · rw [resample, if_neg hp] at h; cases h; exact ⟨rfl, hp⟩

theorem pickParents_ok {len d0 d1 : ℕ} {ds : List ℕ} {q : ℕ × ℕ}
    (h : pickParents len d0 d1 ds = .ok q) : q.1 ≠ q.2 := by
  unfold pickParents at h
  by_cases hl : len = 0
  · rw [if_pos hl] at h; exact Except.noConfusion h
  · rw [if_neg hl] at h
    obtain ⟨h1, h2⟩ := resample_ok h
    omega

/-- C4, counterexample.  The claim says the crossover point is drawn
uniformly from `[1, gene_length-1]`, i.e. that 9 is a possible point for
genes of length 10.  `np.random.randint(1, length_gene-1)` has an *exclusive*
upper bound `length_gene - 1 = 9`, so its support is `[1, 8]`: the point 9 is
never drawn (while 8 is, e.g. from entropy 7). -/
theorem C4_counterexample :
    (¬ ∃ r : ℕ, crossoverPointDraw r = 9) ∧ crossoverPointDraw 7 = 8 := by
  constructor
  · rintro ⟨r, hr⟩
    unfold crossoverPointDraw length_gene at hr
    omega
  · decide

/-- C4 (amended): each offspring is produced from two *distinct* elite
parents and one crossover point uniform on `[1, gene_length-2]` (the
half-open `randint(1, gene_length-1)`), concatenating parent 1's prefix with
parent 2's suffix; for genes of length 10 and crossover point 4, the child's
first 4 positions equal parent A's and its last 6 equal parent B's, before
mutation is applied. -/
theorem C4_crossover (A B : List ℕ)
    (hA : A.length = length_gene) (hB : B.length = length_gene) :
    (∀ len d0 d1 ds q, pickParents len d0 d1 ds = .ok q → q.1 ≠ q.2) ∧
    (∀ r, 1 ≤ crossoverPointDraw r ∧ crossoverPointDraw r ≤ length_gene - 2) ∧
    (crossoverChild A B 4).take 4 = A.take 4 ∧
    (crossoverChild A B 4).drop 4 = B.drop 4 ∧
    (crossoverChild A B 4).length = length_gene := by
  refine ⟨fun len d0 d1 ds q h => pickParents_ok h, fun r => ?_, ?_, ?_, ?_⟩
  · unfold crossoverPointDraw length_gene
    have : r % (10 - 1 - 1) < 8 := Nat.mod_lt _ (by decide)
    omega
  · exact List.take_left' (by rw [List.length_take, hA]; decide)
  · exact List.drop_left' (by rw [List.length_take, hA]; decide)
  · unfold crossoverChild
    rw [List.length_append, List.length_take, List.length_drop, hA, hB]
    decide

/-- Witness for `C4_crossover` on two concrete length-10 genes. -/
theorem C4_crossover_witness :
    (∀ len d0 d1 ds q, pickParents len d0 d1 ds = .ok q → q.1 ≠ q.2) ∧
    (∀ r, 1 ≤ crossoverPointDraw r ∧ crossoverPointDraw r ≤ length_gene - 2) ∧
    (crossoverChild (List.range 10) (List.replicate 10 3) 4).take 4
      = (List.range 10).take 4 ∧
    (crossoverChild (List.range 10) (List.replicate 10 3) 4).drop 4
      = (List.replicate 10 3).drop 4 ∧
    (crossoverChild (List.range 10) (List.replicate 10 3) 4).length
      = length_gene :=
  C4_crossover (List.range 10) (List.replicate 10 3) (by decide) (by decide)

/-- With a single elite the resampling loop collides forever: every draw
reduces to `0 = parent[0]`, so every finite draw budget ends in `hang`. -/
theorem resample_hang : ∀ ds : List ℕ, resample 1 0 0 ds = .error .hang := by
  intro ds
  induction ds with
  | nil => rfl
  | cons d ds ih =>
    rw [resample, if_pos rfl, Nat.mod_one]
    exact ih

theorem pickParents_one (d0 d1 : ℕ) (ds : List ℕ) :
    pickParents 1 d0 d1 ds = .error .hang := by
  unfold pickParents
  rw [if_neg (by omega), Nat.mod_one, Nat.mod_one]
  exact resample_hang ds

theorem makeChild_nil (dr : StepDraws) (j : ℕ) :
    makeChild [] dr j = .error .valueError := rfl

theorem makeChild_one (g : List ℕ) (dr : StepDraws) (j : ℕ) :
    makeChild [g] dr j = .error .hang := by
  unfold makeChild
  rw [show ([g] : List (List ℕ)).length = 1 from rfl, pickParents_one]

theorem mapE_error {α β : Type} (f : α → Except GAErr β) (e : GAErr) :
    ∀ l : List α, l ≠ [] → (∀ a ∈ l, f a = .error e) →
      mapE f l = .error e := by
  intro l hne h
  cases l with
  | nil => exact absurd rfl hne
  | cons a l =>
    rw [mapE, h a (List.mem_cons_self a l)]

theorem mapE_ok_of_forall {α β : Type} (f : α → Except GAErr β) (g : α → β) :
    ∀ l : List α, (∀ a ∈ l, f a = .ok (g a)) → mapE f l = .ok (l.map g) := by
  intro l
  induction l with
  | nil => intro _; rfl
  | cons a l ih =>
    intro h
    rw [mapE, h a (List.mem_cons_self a l),
      ih (fun b hb => h b (List.mem_cons_of_mem a hb)), List.map_cons]

theorem mapE_ok_length {α β : Type} (f : α → Except GAErr β) :
    ∀ (l : List α) (ys : List β), mapE f l = .ok ys →
      ys.length = l.length ∧ ∀ y ∈ ys, ∃ a ∈ l, f a = .ok y := by
  intro l
  induction l with
  | nil =>
    intro ys h
    cases h
    exact ⟨rfl, by simp⟩
  | cons a l ih =>
    intro ys h
    rw [mapE] at h
    cases hfa : f a with
    | error e => rw [hfa] at h; exact Except.noConfusion h
    | ok b =>
      rw [hfa] at h
      cases hm : mapE f l with
      | error e => rw [hm] at h; exact Except.noConfusion h
      | ok bs =>
        rw [hm] at h
        cases h
        obtain ⟨ihlen, ihmem⟩ := ih bs hm
        refine ⟨by simp [ihlen], ?_⟩
        intro y hy
        rcases List.mem_cons.mp hy with rfl | hy'
        · exact ⟨a, List.mem_cons_self a l, hfa⟩
        · obtain ⟨a', ha', hfa'⟩ := ihmem y hy'
          exact ⟨a', List.mem_cons_of_mem a ha', hfa'⟩

theorem makeChild_ok_length {parents : List (List ℕ)} {dr : StepDraws}
    {j : ℕ} {c : List ℕ} (h : makeChild parents dr j = .ok c) :
    c.length = length_gene := by
  unfold makeChild at h
  cases hp : pickParents parents.length (dr.d0 j) (dr.d1 j) (dr.ds j) with
  | error e => rw [hp] at h; exact Except.noConfusion h
  | ok p =>
    rw [hp] at h
    simp only at h
    split at h
    · cases h
      rw [mutateChild, List.length_mapIdx]
      assumption
    · exact Except.noConfusion h

/-- The all-zeros entropy source. -/
def drZero : StepDraws :=
  ⟨fun _ => 0, fun _ => 0, fun _ => [], fun _ => 0, fun _ _ => none,
   fun _ _ => 0⟩

/-- An entropy source whose second parent draw is always 1 (so that with at
least two elites the first resampling attempt already succeeds). -/
def drPick01 : StepDraws :=
  ⟨fun _ => 0, fun _ => 1, fun _ => [], fun _ => 0, fun _ _ => none,
   fun _ _ => 0⟩

/-- C5, counterexample.  The claim says that with fewer than `elite_count`
elites — "including zero or one gene" — the Evolution Engine does not fail
and still produces the next population.  With exactly one elite, both parent
draws of the first offspring come from `randint(0,1)` and are 0, and the
resampling loop `while parent[0]==parent[1]` redraws 0 forever: the step
fails (for every finite draw budget, here the empty one) instead of
producing a population. -/
theorem C5_counterexample :
    nextPopulation [List.replicate 10 0] drZero = .error .hang := by
  unfold nextPopulation
  rw [mapE_error _ _ _ (by decide) (fun a _ => makeChild_one _ _ _)]

/-- C5 (amended): the fewer-than-two-elites edge case is *not* handled: with
zero elites every generation step raises `ValueError`
(`np.random.randint(0,0)`), and with exactly one elite the parent resampling
loop never terminates.  With at least two elites the engine does proceed with
however many elites are available (possibly fewer than `elite_count`): a
successful step exists and yields a full population of `num_genes` genes. -/
theorem C5_few_elites (parents : List (List ℕ))
    (hrows : ∀ row ∈ parents, row.length = length_gene)
    (h2 : 2 ≤ parents.length) (hcap : parents.length ≤ 10) :
    (∀ dr, nextPopulation [] dr = .error .valueError) ∧
    (∀ g dr, nextPopulation [g] dr = .error .hang) ∧
    (∃ dr pop, nextPopulation parents dr = .ok pop ∧
      pop.length = num_genes) := by
  refine ⟨?_, ?_, ?_⟩
  · intro dr
    unfold nextPopulation
    rw [mapE_error _ _ _ (by decide) (fun a _ => makeChild_nil _ _)]
  · intro g dr
    unfold nextPopulation
    rw [mapE_error _ _ _ (by decide) (fun a _ => makeChild_one _ _ _)]
  · have hrow0 : (parents.getD 0 []).length = length_gene := by
      refine hrows _ ?_
      rw [List.getD_eq_getElem _ _ (by omega)]
      exact List.getElem_mem _
    have hrow1 : (parents.getD 1 []).length = length_gene := by
      refine hrows _ ?_
      rw [List.getD_eq_getElem _ _ (by omega)]
      exact List.getElem_mem _
    have hchild : ∀ j, makeChild parents drPick01 j
        = .ok (mutateChild (fun _ => none)
            (crossoverChild (parents.getD 0 []) (parents.getD 1 []) 1)) := by
      intro j
      have hpick : pickParents parents.length 0 1 []
          = .ok (0, 1) := by
        unfold pickParents
        rw [if_neg (by omega), Nat.zero_mod, Nat.mod_eq_of_lt (by omega),
          resample, if_neg (by omega)]
      unfold makeChild
      rw [show drPick01.d0 j = 0 from rfl, show drPick01.d1 j = 1 from rfl,
        show drPick01.ds j = [] from rfl, hpick]
      simp only
      rw [if_pos ?_]
      · rfl
      · rw [show crossoverPointDraw (drPick01.cp j) = 1 from rfl,
          crossoverChild, List.length_append, List.length_take,
          List.length_drop, hrow0, hrow1]
        decide
    have hmap := mapE_ok_of_forall (makeChild parents drPick01) _
      (List.range num_genes) (fun j _ => hchild j)
    have hng : num_genes = 20 := rfl
    refine ⟨drPick01,
      ((List.range num_genes).map fun _ => mutateChild (fun _ => none)
          (crossoverChild (parents.getD 0 []) (parents.getD 1 []) 1)).take
            (num_genes - num_genes / 10 - parents.length)
        ++ parents ++
        ((List.range (num_genes / 10)).map fun j =>
          (List.range length_gene).map fun k => drPick01.fresh j k % 11),
      ?_, ?_⟩
    · unfold nextPopulation
      rw [hmap]
      simp only
      rw [if_pos ⟨by omega, hrows⟩]
    · rw [List.length_append, List.length_append, List.length_take,
        List.length_map, List.length_range, List.length_map,
        List.length_range]
      omega

/-- Witness for `C5_few_elites` with two concrete elites. -/
theorem C5_few_elites_witness :
    (∀ dr, nextPopulation [] dr = .error .valueError) ∧
    (∀ g dr, nextPopulation [g] dr = .error .hang) ∧
    (∃ dr pop,
      nextPopulation [List.replicate 10 0, List.replicate 10 1] dr
        = .ok pop ∧ pop.length = num_genes) :=
  C5_few_elites [List.replicate 10 0, List.replicate 10 1]
    (by decide) (by decide) (by decide)

/-- C9, counterexample.  When no gene passes even the lowest threshold the
elite index set is empty, and the step does not produce a population of any
size: `np.random.randint(0, 0)` raises `ValueError` in the first offspring's
parent selection, so `advance` does not "always" return `num_genes` genes. -/
theorem C9_counterexample :
    nextPopulation [] drZero = .error .valueError := by
  unfold nextPopulation
  rw [mapE_error _ _ _ (by decide) (fun a _ => makeChild_nil _ _)]

/-- C9 (amended): *whenever the generation step completes* — which needs at
least two elites (`C5_few_elites`) — the next population has exactly
`num_genes = 20` genes of `length_gene = 10` entries each, regardless of how
many genes passed the quorum and how few elites were obtained. -/
theorem C9_population_size (parents : List (List ℕ)) (dr : StepDraws)
    (pop : List (List ℕ)) (h : nextPopulation parents dr = .ok pop) :
    pop.length = num_genes ∧ ∀ row ∈ pop, row.length = length_gene := by
  unfold nextPopulation at h
  cases hm : mapE (makeChild parents dr) (List.range num_genes) with
  | error e => rw [hm] at h; exact Except.noConfusion h
  | ok children =>
    rw [hm] at h
    simp only at h
    split at h
    · cases h
      obtain ⟨hclen, hcmem⟩ := mapE_ok_length _ _ _ hm
      rename_i hcond
      obtain ⟨hkeep, hrows⟩ := hcond
      rw [List.length_range] at hclen
      constructor
      · rw [List.length_append, List.length_append, List.length_take,
          List.length_map, List.length_range, hclen]
        unfold num_genes at hkeep ⊢
        omega
      · intro row hrow
        rcases List.mem_append.mp hrow with hrow' | hfresh
        · rcases List.mem_append.mp hrow' with hchild | hparent
          · obtain ⟨j, _, hjc⟩ := hcmem row (List.mem_of_mem_take hchild)
            exact makeChild_ok_length hjc
          · exact hrows row hparent
        · obtain ⟨j, _, hj⟩ := List.mem_map.mp hfresh
          rw [← hj, List.length_map, List.length_range]
    · exact Except.noConfusion h

/-- Witness for `C9_population_size`: a concrete successful step from two
elites. -/
theorem C9_population_size_witness :
    (List.replicate 16 ((0 : ℕ) :: List.replicate 9 1) ++
        [List.replicate 10 0, List.replicate 10 1] ++
        List.replicate 2 (List.replicate 10 0)).length = num_genes ∧
    ∀ row ∈ (List.replicate 16 ((0 : ℕ) :: List.replicate 9 1) ++
        [List.replicate 10 0, List.replicate 10 1] ++
        List.replicate 2 (List.replicate 10 0)),
      row.length = length_gene :=
  C9_population_size [List.replicate 10 0, List.replicate 10 1] drPick01 _
    (by rfl)

/-! ### GA.py: the fidelity evaluator `get_optimized_fidelity`

```
backend = qk.Aer.get_backend('statevector_simulator')
num_parameters = Gene.num_parameters
theta = np.random.rand(num_parameters)
def loss(theta):
    fidelity = get_fidelity(statevector(Gene, theta, backend), target_statevector)
    return -fidelity
theta = optimizer.minimize(loss, x0=theta)
fidelity = get_fidelity(statevector(Gene, theta.x, backend), target_statevector)
depth = Gene.depth()
return fidelity, depth, theta.x
```

The state-vector simulator and the SPSA optimizer are external collaborators
(spec §6) and enter the embedding as function parameters `sim`, `fid`,
`minimize`; `Gene.depth()` is the abstract value `d`.  What is verified here
is the evaluator's own control flow: it calls `optimizer.minimize`
*unconditionally* — there is no `num_parameters == 0` branch anywhere — which
the embedding records in an explicit trace field `optimizerCalls`. -/

/-- What `get_optimized_fidelity` returns, plus the invocation trace. -/
structure EvalResult (σ : Type) : Type where
  fidelity : ℚ
  depth : ℕ
  theta : List ℚ
  optimizerCalls : ℕ
  deriving DecidableEq

/-- `get_optimized_fidelity` with its collaborators abstracted: `sim` is the
simulation of a (partially) bound circuit, `fid` the fidelity, `minimize` the
black-box optimizer, `θ₀` the random initial point `np.random.rand(k)`.
`statevector(Gene, θ)` binds through `Gene.bind_parameters`
(`bind_parameters` above); a `theta` longer than `num_parameters` would raise
there, which the loss models by the default 0 and the final binding by
`none`.  `optimizerCalls = 1` traces the sole, unconditional
`optimizer.minimize` call. -/
def get_optimized_fidelity {σ : Type} (sim : List BOp → σ) (fid : σ → σ → ℚ)
    (minimize : (List ℚ → ℚ) → List ℚ → List ℚ)
    (ops : List Op) (k : ℕ) (d : ℕ) (θ₀ : List ℚ) (target : σ) :
    Option (EvalResult σ) :=
  let loss : List ℚ → ℚ := fun θ =>
    ((bind_parameters ops k θ).map fun b => -(fid (sim b) target)).getD 0
  let θx := minimize loss θ₀
  match bind_parameters ops k θx with
  | none => none
  | some b => some ⟨fid (sim b) target, d, θx, 1⟩

/-- C6, counterexample.  The gene `[[(3, 0)]]` decodes to a single fixed `h`
gate: `num_parameters = 0`.  The claim says the evaluator bypasses
optimization entirely and does not invoke the optimizer over an empty
parameter space; but the evaluator's trace records the unconditional
`optimizer.minimize` invocation (with empty `x0`) — there is no bypass
branch. -/
theorem C6_counterexample :
    generate_circuit_from_gene [[((3 : Int), (0 : Int))]] 1
      = some ([Op.h 0], 0) ∧
    (get_optimized_fidelity (fun b => b) (fun _ _ => 0) (fun _ x => x)
        [Op.h 0] 0 1 [] ([] : List BOp)).map (fun r => r.optimizerCalls)
      = some 1 := ⟨rfl, rfl⟩

/-- C6 (amended): the evaluator does *not* bypass optimization —
`optimizer.minimize` is invoked unconditionally, over the empty initial
vector, even when `num_parameters = 0` — but the returned result is
nonetheless that of the unparametrized circuit and is independent of the
optimizer: any length-preserving optimizer returns the empty vector, binding
it leaves the circuit unchanged (with 0 parameters no rotation exists to
substitute), and the evaluator performs no division anywhere. -/
theorem C6_zero_parameters {σ : Type} (sim : List BOp → σ) (fid : σ → σ → ℚ)
    (minimize : (List ℚ → ℚ) → List ℚ → List ℚ)
    (gene : List (List (Int × Int))) (n : ℕ) (ops : List Op) (d : ℕ)
    (target : σ)
    (_hdec : generate_circuit_from_gene gene n = some (ops, 0))
    (hmin : ∀ f x, (minimize f x).length = x.length) :
    get_optimized_fidelity sim fid minimize ops 0 d [] target
      = some ⟨fid (sim (ops.map (substOp []))) target, d, [], 1⟩ := by
  have hbind : ∀ θ : List ℚ, θ = [] →
      bind_parameters ops 0 θ = some (ops.map (substOp [])) := by
    intro θ hθ
    subst hθ
    unfold bind_parameters
    rw [if_neg (by simp), List.zip_nil_right]
  unfold get_optimized_fidelity
  simp only
  rw [List.eq_nil_of_length_eq_zero (hmin _ []), hbind [] rfl]

/-- Witness for `C6_zero_parameters` on the one-gate circuit decoded from
`[[(3, 0)]]`, with the identity-shaped collaborators. -/
theorem C6_zero_parameters_witness :
    get_optimized_fidelity (fun b => b) (fun _ _ => (0 : ℚ)) (fun _ x => x)
        [Op.h 0] 0 1 [] ([] : List BOp)
      = some ⟨0, 1, [], 1⟩ :=
  C6_zero_parameters (fun b => b) (fun _ _ => 0) (fun _ x => x)
    [[(3, 0)]] 1 [Op.h 0] 1 [] (by decide) (fun f x => rfl)

end QSP
